import Mathlib

/-!
Shallow embedding of the core of the LSKV application (an etcd-compatible
MVCC key-value store layered over a host transaction engine), translated
from `src/app/kvstore.cpp`, `src/app/index.cpp`, `src/app/leases.cpp` and
`src/app/app.cpp`.

Modelling conventions:
* byte strings (`std::string` / `std::vector<uint8_t>`) are `List Nat`
  compared lexicographically, matching `std::string` ordering;
* `int64_t` becomes `Int` (no arithmetic in the sources comes near the
  64-bit boundary in the modelled operations);
* the host's versioned byte map becomes an association list from key to a
  stored record together with the host's `get_version_of_previous_write`
  answer for that key (`none` when the key has no committed write);
* serialisation (`KSerialiser`/`VSerialiser`) is the identity;
* wall-clock time (`now_seconds()` in `leases.cpp`) is passed explicitly,
  as the RPC layer does via `get_time_s()`;
* the mirrored *public* records map of `kvstore.cpp` is omitted: it is
  written by `put`/`remove` but never read by any modelled operation;
* out-of-bounds accesses / thrown exceptions are modelled by `Option`
  results (`none` = the C++ execution has no defined result).
-/

namespace LSKV

/-- Byte strings: keys and values of the record map. -/
abbrev Bytes := List Nat

/-- Lexicographic strict order on byte strings, as `std::string::operator<`. -/
def bytesLt : Bytes → Bytes → Bool
  | [], [] => false
  | [], _ :: _ => true
  | _ :: _, [] => false
  | a :: as, b :: bs =>
    if a < b then true
    else if b < a then false
    else bytesLt as bs

/-- `a ≤ b` on byte strings. -/
def bytesLe (a b : Bytes) : Bool := !(bytesLt b a)

/-- The record value stored under each key
(`app::kvstore::Value`, kvstore.h / kvstore.cpp). -/
structure Value where
  data : Bytes
  create_revision : Int
  mod_revision : Int
  version : Int
  lease : Int
  deriving Repr, DecidableEq

/-- `Value::Value(const std::string& v, int64_t lease_id)` (kvstore.cpp:18). -/
def Value.ofData (v : Bytes) (lease_id : Int) : Value :=
  { data := v, create_revision := 0, mod_revision := 0, version := 1,
    lease := lease_id }

/-- `Value::Value()` (kvstore.cpp:27): the all-default record. -/
def Value.default : Value :=
  { data := [], create_revision := 0, mod_revision := 0, version := 0,
    lease := 0 }

/-- `Value::hydrate(uint64_t revision)` (kvstore.cpp:41): set
`create_revision` if it is the zero sentinel, and always set
`mod_revision`. -/
def Value.hydrate (v : Value) (revision : Int) : Value :=
  let v := if v.create_revision == 0 then { v with create_revision := revision } else v
  { v with mod_revision := revision }

/-- One entry of the host's `records` map: the stored (serialised) record
plus the host's answer to `get_version_of_previous_write` for this key
(`none` when the key has no committed write, e.g. it was first written in
the currently executing transaction). -/
structure Entry where
  value : Value
  prevWrite : Option Int
  deriving Repr, DecidableEq

/-- The host's private `records` map, as an association list. -/
abbrev Store := List (Bytes × Entry)

/-- Key lookup in the records map. -/
def lookupKey : Store → Bytes → Option Entry
  | [], _ => none
  | (k', e) :: rest, k => if k' == k then some e else lookupKey rest k

/-- `map::put`: replace the entry for `k` if present, else append. -/
def insertKey : Store → Bytes → Entry → Store
  | [], k, e => [(k, e)]
  | (k', e') :: rest, k, e =>
    if k' == k then (k, e) :: rest else (k', e') :: insertKey rest k e

/-- `map::remove`. -/
def eraseKey (st : Store) (k : Bytes) : Store :=
  st.filter (fun p => !(p.1 == k))

/-- The host assigns commit revision `rev` to the latest write of key `k`:
after commit, `get_version_of_previous_write` for `k` answers `rev`. -/
def commitKey : Store → Bytes → Int → Store
  | [], _, _ => []
  | (k', e) :: rest, k, rev =>
    if k' == k then (k', { e with prevWrite := some rev }) :: rest
    else (k', e) :: commitKey rest k rev

namespace KVStore

/-- `KVStore::hydrate_value` (kvstore.cpp:242): hydrate a deserialised
record with the host's version-of-previous-write (defaulted to 0). -/
def hydrate_value (e : Entry) : Value :=
  e.value.hydrate (e.prevWrite.getD 0)

/-- `KVStore::get` (kvstore.cpp:103): fetch, deserialise and hydrate. -/
def get (st : Store) (key : Bytes) : Option Value :=
  (lookupKey st key).map hydrate_value

/-- `KVStore::put` (kvstore.cpp:172): read the old value (hydrated),
derive the new record's `create_revision` and `version` from it, and
write the new record back. Returns the old value. -/
def put (st : Store) (key : Bytes) (value : Value) : Option Value × Store :=
  let old := get st key
  let value :=
    match old with
    | some old_val =>
      let value :=
        if old_val.create_revision == 0 then
          match (lookupKey st key).bind (·.prevWrite) with
          | some ver => { value with create_revision := ver }
          | none => value
        else
          { value with create_revision := old_val.create_revision }
      { value with version := old_val.version + 1 }
    | none => value
  (old, insertKey st key ⟨value, (lookupKey st key).bind (·.prevWrite)⟩)

/-- `KVStore::remove` (kvstore.cpp:218): read the raw old value, delete
the key, and return the old value deserialised but *not* hydrated. -/
def remove (st : Store) (key : Bytes) : Option Value × Store :=
  ((lookupKey st key).map (·.value), eraseKey st key)

/-- `KVStore::range` (kvstore.cpp:137): iterate the key interval
`[from, to)` (`to = none` meaning no upper bound) in map order, hydrating
each record. Rendered as the list of visited key/value pairs. -/
def range (st : Store) (first : Bytes) (last : Option Bytes) :
    List (Bytes × Value) :=
  (st.filter (fun p =>
      bytesLe first p.1 &&
        match last with
        | some l => bytesLt p.1 l
        | none => true)).map
    (fun p => (p.1, hydrate_value p.2))

/-- `KVStore::foreach` (kvstore.cpp:122): visit every entry, hydrated. -/
def foreach (st : Store) : List (Bytes × Value) :=
  st.map (fun p => (p.1, hydrate_value p.2))

end KVStore

/-- A put followed by the host committing the transaction at revision
`rev`: the facade-level `put` of `Value(data, lease)` (as built by the
Put RPC handler, app.cpp:631), after which the host records `rev` as the
version of the last write to `key`. -/
def commitPut (st : Store) (key : Bytes) (data : Bytes) (lease : Int)
    (rev : Int) : Option Value × Store :=
  let res := KVStore.put st key (Value.ofData data lease)
  (res.1, commitKey res.2 key rev)

/-! ## Lease store (`src/app/leases.cpp`) -/

/-- `app::leasestore::Lease` (leases.h). -/
structure Lease where
  ttl : Int
  start_time : Int
  deriving Repr, DecidableEq

/-- `Lease::ttl_remaining` (leases.cpp:35), with `now_seconds()` passed
explicitly as `now`. -/
def Lease.ttl_remaining (l : Lease) (now : Int) : Int :=
  let remaining := (l.start_time + l.ttl) - now
  if remaining ≤ 0 then -1 else remaining

/-- `Lease::has_expired` (leases.cpp:49). -/
def Lease.has_expired (l : Lease) (now : Int) : Bool :=
  l.ttl_remaining now ≤ 0

/-- `EXPIRED_LEASE` (leases.cpp:19). -/
def EXPIRED_LEASE : Lease := ⟨0, 0⟩

/-- The host's `leases` map (`int64 → Lease`), as an association list. -/
abbrev LeaseMap := List (Int × Lease)

/-- Key lookup in the leases map. -/
def lookupLease : LeaseMap → Int → Option Lease
  | [], _ => none
  | (id', l) :: rest, id => if id' == id then some l else lookupLease rest id

/-- `map::put` on the leases map: replace if present, else append. -/
def insertLease : LeaseMap → Int → Lease → LeaseMap
  | [], id, l => [(id, l)]
  | (id', l') :: rest, id, l =>
    if id' == id then (id, l) :: rest else (id', l') :: insertLease rest id l

/-- `map::remove` on the leases map. -/
def eraseLease (m : LeaseMap) (id : Int) : LeaseMap :=
  m.filter (fun p => !(p.1 == id))

namespace LeaseStore

/-- `ReadOnlyLeaseStore::get` (leases.cpp:76): the stored lease, or the
expired-lease sentinel when the id is missing or the lease has expired. -/
def get (m : LeaseMap) (id : Int) (now : Int) : Lease :=
  match lookupLease m id with
  | none => EXPIRED_LEASE
  | some lease => if lease.has_expired now then EXPIRED_LEASE else lease

/-- `ReadOnlyLeaseStore::contains` (leases.cpp:71). -/
def contains (m : LeaseMap) (id : Int) (now : Int) : Bool :=
  !((get m id now).has_expired now)

/-- `WriteOnlyLeaseStore::grant` (leases.cpp:94), with the randomly drawn
id passed as a parameter. -/
def grant (m : LeaseMap) (id : Int) (ttl : Int) (now : Int) :
    (Int × Lease) × LeaseMap :=
  let lease : Lease := ⟨ttl, now⟩
  ((id, lease), insertLease m id lease)

/-- `WriteOnlyLeaseStore::revoke` (leases.cpp:108). -/
def revoke (m : LeaseMap) (id : Int) : LeaseMap :=
  eraseLease m id

/-- `WriteOnlyLeaseStore::keep_alive` (leases.cpp:113): if the id is
present, reset `start_time` to now and return its ttl; else return 0. -/
def keep_alive (m : LeaseMap) (id : Int) (now : Int) : Int × LeaseMap :=
  match lookupLease m id with
  | some lease =>
    let lease := { lease with start_time := now }
    (lease.ttl, insertLease m id lease)
  | none => (0, m)

end LeaseStore

/-! ## MVCC history index (`src/app/index.cpp`) -/

/-- `app::index::KVIndexer` state: an ordered map from revision to the
keys changed at that revision, an ordered map from key to the
chronological vector of its snapshots, and the highest indexed
transaction id. -/
structure KVIndexer where
  revisions_to_key : List (Int × List Bytes)
  keys_to_values : List (Bytes × List Value)
  current_txid : Int
  deriving Repr, DecidableEq

/-- Lookup in `keys_to_values`. -/
def lookupVals : List (Bytes × List Value) → Bytes → Option (List Value)
  | [], _ => none
  | (k', vs) :: rest, k => if k' == k then some vs else lookupVals rest k

/-- Replace the vector stored for a present key of `keys_to_values`. -/
def setVals : List (Bytes × List Value) → Bytes → List Value →
    List (Bytes × List Value)
  | [], _, _ => []
  | (k', vs') :: rest, k, vs =>
    if k' == k then (k', vs) :: rest else (k', vs') :: setVals rest k vs

/-- Erase a key of `keys_to_values`. -/
def eraseVals (m : List (Bytes × List Value)) (k : Bytes) :
    List (Bytes × List Value) :=
  m.filter (fun p => !(p.1 == k))

/-- `revisions_to_key[revision].push_back(key)` on the ordered map
(creating the entry at its sorted position when absent). -/
def addRevKey : List (Int × List Bytes) → Int → Bytes →
    List (Int × List Bytes)
  | [], rev, key => [(rev, [key])]
  | (r, ks) :: rest, rev, key =>
    if rev == r then (r, ks ++ [key]) :: rest
    else if rev < r then (rev, [key]) :: (r, ks) :: rest
    else (r, ks) :: addRevKey rest rev key

/-- `keys_to_values[key].push_back(value)` on the ordered map (creating
the entry at its sorted position when absent). -/
def addKeyVal : List (Bytes × List Value) → Bytes → Value →
    List (Bytes × List Value)
  | [], key, v => [(key, [v])]
  | (k, vs) :: rest, key, v =>
    if key == k then (k, vs ++ [v]) :: rest
    else if bytesLt key k then (key, [v]) :: (k, vs) :: rest
    else (k, vs) :: addKeyVal rest key v

namespace KVIndexer

/-- `KVIndexer::handle_committed_transaction` (index.cpp:28): fold the
committed diff (key ↦ new value, or `none` for a deletion) into the
index at revision `rev`. A present value is hydrated at `rev`; a
deletion is recorded as the tombstone `Value` with only `mod_revision`
set. -/
def handle_committed_transaction (idx : KVIndexer) (rev : Int)
    (diff : List (Bytes × Option Value)) : KVIndexer :=
  let idx := { idx with current_txid := rev }
  diff.foldl
    (fun idx p =>
      match p.2 with
      | some v =>
        let value := v.hydrate rev
        { idx with
          revisions_to_key := addRevKey idx.revisions_to_key rev p.1
          keys_to_values := addKeyVal idx.keys_to_values p.1 value }
      | none =>
        let value : Value := { Value.default with mod_revision := rev }
        { idx with
          revisions_to_key := addRevKey idx.revisions_to_key rev p.1
          keys_to_values := addKeyVal idx.keys_to_values p.1 value })
    idx

/-- The loop of `find_value` (index.cpp:82): walk the snapshots in
order, tracking the last one seen; stop at the first snapshot from the
future; a tombstone (`create_revision == 0`) resets the tracker. -/
def find_value_loop (atRev : Int) (val : Option Value) :
    List Value → Option Value
  | [] => val
  | v :: rest =>
    if v.mod_revision > atRev then val
    else if v.create_revision == 0 then find_value_loop atRev none rest
    else find_value_loop atRev (some v) rest

/-- `find_value` (index.cpp:82). -/
def find_value (atRev : Int) (values : List Value) : Option Value :=
  find_value_loop atRev none values

/-- `KVIndexer::get` (index.cpp:107): historical point read. -/
def get (idx : KVIndexer) (atRev : Int) (key : Bytes) : Option Value :=
  match lookupVals idx.keys_to_values key with
  | some values => find_value atRev values
  | none => none

/-- `KVIndexer::range` (index.cpp:123): walk the keys of
`keys_to_values` from `lower_bound(first)` to `lower_bound(last)` (end
of map when `last` is absent) and emit the point read of each key when
it is present at `atRev`. -/
def range (idx : KVIndexer) (atRev : Int) (first : Bytes)
    (last : Option Bytes) : List (Bytes × Value) :=
  (idx.keys_to_values.filter (fun p =>
      bytesLe first p.1 &&
        match last with
        | some l => bytesLt p.1 l
        | none => true)).filterMap
    (fun p => (find_value atRev p.2).map (fun v => (p.1, v)))

/-- One key's step of `KVIndexer::compact` (index.cpp:199): drop the
leading snapshots below the compaction revision from the key's vector
(`keys_to_values.at(key)` — `none` models the `std::out_of_range` throw
when the key is untracked), erasing the key when nothing remains. -/
def compactKey (m : List (Bytes × List Value)) (key : Bytes)
    (atRev : Int) : Option (List (Bytes × List Value)) :=
  match lookupVals m key with
  | none => none
  | some values =>
    let values := values.dropWhile (fun v => v.mod_revision < atRev)
    if values.isEmpty then some (eraseVals m key)
    else some (setVals m key values)

/-- `KVIndexer::compact` (index.cpp:165). The initial
`revisions_to_key.begin()->first` read is an out-of-bounds dereference
when the map is empty, modelled by `none`. Otherwise: erase the leading
entries with revision below `atRev`, collecting the touched keys
(`std::set`, modelled by `dedup`), then trim each collected key's
vector. -/
def compact (idx : KVIndexer) (atRev : Int) : Option KVIndexer :=
  match idx.revisions_to_key with
  | [] => none
  | _ :: _ =>
    let erased := idx.revisions_to_key.takeWhile (fun p => p.1 < atRev)
    let remaining := idx.revisions_to_key.dropWhile (fun p => p.1 < atRev)
    let keys_compacted : List Bytes := (erased.flatMap (·.2)).dedup
    match keys_compacted.foldl
        (fun acc key => acc.bind (fun m => compactKey m key atRev))
        (some idx.keys_to_values) with
    | none => none
    | some m =>
      some { idx with revisions_to_key := remaining, keys_to_values := m }

end KVIndexer

/-! ## RPC handlers (`src/app/app.cpp`) -/

/-- gRPC status codes produced by the modelled handlers. -/
inductive Err where
  | FAILED_PRECONDITION
  | INVALID_ARGUMENT
  | NOT_FOUND
  deriving Repr, DecidableEq

/-- Read-only collaborators of a handler: the leases map, the history
index, and the host time `get_time_s()`. -/
structure Env where
  lmap : LeaseMap
  idx : KVIndexer
  now : Int
  deriving Repr

/-- `etcdserverpb::RangeRequest`, restricted to the fields the handler
reads. -/
structure RangeRequest where
  key : Bytes
  range_end : Bytes
  limit : Int
  revision : Int
  sort_order : Int
  keys_only : Bool
  count_only : Bool
  min_mod_revision : Int
  max_mod_revision : Int
  min_create_revision : Int
  max_create_revision : Int
  deriving Repr, DecidableEq

/-- `etcdserverpb::PutRequest`, restricted to the fields the handler
reads. -/
structure PutRequest where
  key : Bytes
  value : Bytes
  lease : Int
  prev_kv : Bool
  ignore_value : Bool
  ignore_lease : Bool
  deriving Repr, DecidableEq

/-- `etcdserverpb::DeleteRangeRequest`. -/
structure DeleteRangeRequest where
  key : Bytes
  range_end : Bytes
  prev_kv : Bool
  deriving Repr, DecidableEq

/-- `mvccpb::KeyValue` as filled by the handlers. -/
structure KeyValue where
  key : Bytes
  value : Bytes
  create_revision : Int
  mod_revision : Int
  version : Int
  lease : Int
  deriving Repr, DecidableEq

/-- Build a response `KeyValue` from a record, all six fields set
(range `add_kv`, app.cpp:526; put `prev_kv`, app.cpp:634). -/
def mkKeyValue (key : Bytes) (v : Value) : KeyValue :=
  { key := key, value := v.data, create_revision := v.create_revision,
    mod_revision := v.mod_revision, version := v.version, lease := v.lease }

/-- Build a response `KeyValue` without the lease field, as the
delete_range handler does for `prev_kvs` (app.cpp:681, 733). -/
def mkKeyValueNoLease (key : Bytes) (v : Value) : KeyValue :=
  { key := key, value := v.data, create_revision := v.create_revision,
    mod_revision := v.mod_revision, version := v.version, lease := 0 }

/-- `etcdserverpb::RangeResponse` (`kvs` and `count`). -/
structure RangeResponse where
  kvs : List KeyValue
  count : Int
  deriving Repr, DecidableEq

/-- `etcdserverpb::PutResponse` (`prev_kv`). -/
structure PutResponse where
  prev_kv : Option KeyValue
  deriving Repr, DecidableEq

/-- `etcdserverpb::DeleteRangeResponse` (`deleted` and `prev_kvs`). -/
structure DeleteRangeResponse where
  deleted : Int
  prev_kvs : List KeyValue
  deriving Repr, DecidableEq

/-- The `add_kv` closure of the range handler (app.cpp:508): skip a
record whose lease is set but no longer `contains`-positive; otherwise
count it and append it to the response. -/
def add_kv (env : Env) (acc : RangeResponse) (key : Bytes) (value : Value) :
    RangeResponse :=
  if value.lease != 0 && !(LeaseStore.contains env.lmap value.lease env.now) then
    acc
  else
    { kvs := acc.kvs ++ [mkKeyValue key value], count := acc.count + 1 }

/-- `AppHandlers::range` (app.cpp:436): reject unsupported options,
then read a single key (empty `range_end`) or the interval
`[key, range_end)` (`"\0"` meaning no upper bound), from the history
index when `revision > 0` and from the live map otherwise, filtering
through `add_kv`. -/
def rangeHandler (env : Env) (st : Store) (req : RangeRequest) :
    Except Err RangeResponse :=
  if req.limit != 0 then .error .FAILED_PRECONDITION
  else if req.sort_order != 0 then .error .FAILED_PRECONDITION
  else if req.keys_only then .error .FAILED_PRECONDITION
  else if req.count_only then .error .FAILED_PRECONDITION
  else if req.min_mod_revision != 0 then .error .FAILED_PRECONDITION
  else if req.max_mod_revision != 0 then .error .FAILED_PRECONDITION
  else if req.min_create_revision != 0 then .error .FAILED_PRECONDITION
  else if req.max_create_revision != 0 then .error .FAILED_PRECONDITION
  else
    let pairs : List (Bytes × Value) :=
      if req.range_end == [] then
        match
          (if req.revision > 0 then env.idx.get req.revision req.key
           else KVStore.get st req.key) with
        | some v => [(req.key, v)]
        | none => []
      else
        let last : Option Bytes :=
          if req.range_end == [0] then none else some req.range_end
        if req.revision > 0 then env.idx.range req.revision req.key last
        else KVStore.range st req.key last
    .ok (pairs.foldl (fun acc p => add_kv env acc p.1 p.2) ⟨[], 0⟩)

/-- `AppHandlers::put` (app.cpp:585): reject unsupported options,
require a referenced lease to be live, then write through the facade,
optionally reporting the previous record. -/
def putHandler (env : Env) (st : Store) (req : PutRequest) :
    Except Err (PutResponse × Store) :=
  if req.ignore_value then .error .FAILED_PRECONDITION
  else if req.ignore_lease then .error .FAILED_PRECONDITION
  else if req.lease != 0 && !(LeaseStore.contains env.lmap req.lease env.now) then
    .error .FAILED_PRECONDITION
  else
    let res := KVStore.put st req.key (Value.ofData req.value req.lease)
    let prev : Option KeyValue :=
      if req.prev_kv then res.1.map (mkKeyValue req.key) else none
    .ok (⟨prev⟩, res.2)

/-- `AppHandlers::delete_range` (app.cpp:649): remove a single key
(empty `range_end`) or every key of the interval, counting deletions
and optionally collecting previous records. -/
def deleteRangeHandler (st : Store) (req : DeleteRangeRequest) :
    DeleteRangeResponse × Store :=
  if req.range_end == [] then
    let res := KVStore.remove st req.key
    match res.1 with
    | some old =>
      (⟨1, if req.prev_kv then [mkKeyValueNoLease req.key old] else []⟩, res.2)
    | none => (⟨0, []⟩, res.2)
  else
    let last : Option Bytes :=
      if req.range_end == [0] then none else some req.range_end
    let pairs := KVStore.range st req.key last
    let st' := pairs.foldl (fun s p => (KVStore.remove s p.1).2) st
    (⟨pairs.length,
      if req.prev_kv then pairs.map (fun p => mkKeyValueNoLease p.1 p.2)
      else []⟩,
     st')

/-! ## Txn evaluator (`AppHandlers::txn`, app.cpp:753) -/

/-- `etcdserverpb::Compare_CompareTarget`, with a case for wire values
outside the known enum. -/
inductive CompareTarget where
  | VALUE
  | VERSION
  | CREATE
  | MOD
  | LEASE
  | UNRECOGNIZED
  deriving Repr, DecidableEq

/-- `etcdserverpb::Compare_CompareResult`, with a case for wire values
outside the known enum. -/
inductive CompareResult where
  | EQUAL
  | GREATER
  | LESS
  | NOT_EQUAL
  | UNRECOGNIZED
  deriving Repr, DecidableEq

/-- `etcdserverpb::Compare`: the `has_*` flag of each oneof branch with
its payload is an `Option`. -/
structure Compare where
  target : CompareTarget
  result : CompareResult
  key : Bytes
  range_end : Bytes
  value : Option Bytes
  version : Option Int
  create_revision : Option Int
  mod_revision : Option Int
  lease : Option Int
  deriving Repr, DecidableEq

/-- `AppHandlers::txn_compare` (app.cpp:936) at integer type. -/
def txn_compareInt (result : CompareResult) (stored target : Int) :
    Option Bool :=
  match result with
  | .EQUAL => some (stored == target)
  | .GREATER => some (stored > target)
  | .LESS => some (stored < target)
  | .NOT_EQUAL => some (stored != target)
  | .UNRECOGNIZED => none

/-- `AppHandlers::txn_compare` (app.cpp:936) at `std::string` type
(byte-wise lexicographic comparison). -/
def txn_compareBytes (result : CompareResult) (stored target : Bytes) :
    Option Bool :=
  match result with
  | .EQUAL => some (stored == target)
  | .GREATER => some (bytesLt target stored)
  | .LESS => some (bytesLt stored target)
  | .NOT_EQUAL => some (stored != target)
  | .UNRECOGNIZED => none

/-- One iteration of the compare loop of `txn` (app.cpp:766): reject a
set `range_end`, fetch the key (default record when absent), dispatch
on the target/flag pairs (unknown target or unset flag is
INVALID_ARGUMENT), and reject an unrecognized result operator. -/
def compareOutcome (st : Store) (cmp : Compare) : Except Err Bool :=
  if !(cmp.range_end == []) then .error .FAILED_PRECONDITION
  else
    let value := (KVStore.get st cmp.key).getD Value.default
    let outcome : Except Err (Option Bool) :=
      match cmp.target with
      | .VALUE =>
        match cmp.value with
        | some target => .ok (txn_compareBytes cmp.result value.data target)
        | none => .error .INVALID_ARGUMENT
      | .VERSION =>
        match cmp.version with
        | some target => .ok (txn_compareInt cmp.result value.version target)
        | none => .error .INVALID_ARGUMENT
      | .CREATE =>
        match cmp.create_revision with
        | some target =>
          .ok (txn_compareInt cmp.result value.create_revision target)
        | none => .error .INVALID_ARGUMENT
      | .MOD =>
        match cmp.mod_revision with
        | some target =>
          .ok (txn_compareInt cmp.result value.mod_revision target)
        | none => .error .INVALID_ARGUMENT
      | .LEASE =>
        match cmp.lease with
        | some target => .ok (txn_compareInt cmp.result value.lease target)
        | none => .error .INVALID_ARGUMENT
      | .UNRECOGNIZED => .error .INVALID_ARGUMENT
    match outcome with
    | .error e => .error e
    | .ok none => .error .INVALID_ARGUMENT
    | .ok (some b) => .ok b

/-- The compare loop of `txn`: conjoin the outcome of every compare
into `success`, short-circuiting on errors. -/
def evalCompares (st : Store) : List Compare → Bool → Except Err Bool
  | [], success => .ok success
  | cmp :: rest, success =>
    match compareOutcome st cmp with
    | .error e => .error e
    | .ok b => evalCompares st rest (success && b)

mutual
/-- `etcdserverpb::RequestOp`: the oneof of a Txn op, `unknown` for no
branch set. -/
inductive RequestOp where
  | requestRange : RangeRequest → RequestOp
  | requestPut : PutRequest → RequestOp
  | requestDeleteRange : DeleteRangeRequest → RequestOp
  | requestTxn : TxnRequest → RequestOp
  | unknown : RequestOp

/-- `etcdserverpb::TxnRequest`: compares, success ops, failure ops. -/
inductive TxnRequest where
  | mk : List Compare → List RequestOp → List RequestOp → TxnRequest
end

/-- The compares of a `TxnRequest`. -/
def TxnRequest.compare : TxnRequest → List Compare
  | .mk c _ _ => c

/-- The success op list of a `TxnRequest`. -/
def TxnRequest.success : TxnRequest → List RequestOp
  | .mk _ s _ => s

/-- The failure op list of a `TxnRequest`. -/
def TxnRequest.failure : TxnRequest → List RequestOp
  | .mk _ _ f => f

/-- `etcdserverpb::ResponseOp` (nested Txn responses inlined as the
`succeeded` flag plus the response list). -/
inductive ResponseOp where
  | responseRange : RangeResponse → ResponseOp
  | responsePut : PutResponse → ResponseOp
  | responseDeleteRange : DeleteRangeResponse → ResponseOp
  | responseTxn : Bool → List ResponseOp → ResponseOp

/-- `etcdserverpb::TxnResponse` (`succeeded` and `responses`). -/
structure TxnResponse where
  succeeded : Bool
  responses : List ResponseOp

mutual
/-- `AppHandlers::txn` (app.cpp:753): evaluate the compares into
`succeeded`, then execute the success op list when it holds and the
failure op list otherwise, any op error short-circuiting the whole
Txn. -/
def txnHandler (env : Env) (st : Store) :
    TxnRequest → Except Err (TxnResponse × Store)
  | .mk compares succs fails =>
    match evalCompares st compares true with
    | .error e => .error e
    | .ok success =>
      match evalOps env st (if success then succs else fails) with
      | .error e => .error e
      | .ok (resps, st') => .ok (⟨success, resps⟩, st')
termination_by t => sizeOf t
decreasing_by all_goals (simp_wf; try split) <;> omega

/-- The op-execution loop of `txn` (app.cpp:853): run each op in order,
threading the store and collecting the typed responses. -/
def evalOps (env : Env) (st : Store) :
    List RequestOp → Except Err (List ResponseOp × Store)
  | [] => .ok ([], st)
  | op :: rest =>
    match evalOp env st op with
    | .error e => .error e
    | .ok (resp, st') =>
      match evalOps env st' rest with
      | .error e => .error e
      | .ok (resps, st'') => .ok (resp :: resps, st'')
termination_by ops => sizeOf ops
decreasing_by all_goals (simp_wf; try split) <;> omega

/-- One op of a Txn branch: dispatch to the corresponding handler;
an op with no branch set is INVALID_ARGUMENT (app.cpp:916). -/
def evalOp (env : Env) (st : Store) :
    RequestOp → Except Err (ResponseOp × Store)
  | .requestRange r =>
    match rangeHandler env st r with
    | .error e => .error e
    | .ok resp => .ok (.responseRange resp, st)
  | .requestPut p =>
    match putHandler env st p with
    | .error e => .error e
    | .ok (resp, st') => .ok (.responsePut resp, st')
  | .requestDeleteRange d =>
    let res := deleteRangeHandler st d
    .ok (.responseDeleteRange res.1, res.2)
  | .requestTxn t =>
    match txnHandler env st t with
    | .error e => .error e
    | .ok (resp, st') => .ok (.responseTxn resp.succeeded resp.responses, st')
  | .unknown => .error .INVALID_ARGUMENT
termination_by op => sizeOf op
decreasing_by all_goals simp_wf
end

/-! ## Lease RPC handlers (`src/app/app.cpp`) -/

/-- `etcdserverpb::LeaseKeepAliveResponse` (`id` and `ttl`). -/
structure LeaseKeepAliveResponse where
  id : Int
  ttl : Int
  deriving Repr, DecidableEq

/-- `AppHandlers::lease_keep_alive` (app.cpp:1087): refresh through the
lease store; a zero returned ttl becomes NOT_FOUND. -/
def lease_keep_alive (m : LeaseMap) (now : Int) (id : Int) :
    Except Err (LeaseKeepAliveResponse × LeaseMap) :=
  let res := LeaseStore.keep_alive m id now
  if res.1 == 0 then .error .NOT_FOUND
  else .ok (⟨id, res.1⟩, res.2)

/-- `etcdserverpb::LeaseLeasesResponse`, reduced to the listed ids. -/
structure LeaseLeasesResponse where
  leases : List Int
  deriving Repr, DecidableEq

/-- `AppHandlers::lease_leases` (app.cpp:1064): walk the leases map and
list the id of every lease that has not expired at `now`. -/
def lease_leases (m : LeaseMap) (now : Int) : LeaseLeasesResponse :=
  ⟨(m.filter (fun p => !(p.2.has_expired now))).map (·.1)⟩

/-! ## Spec-side definitions

These follow the wording of the specification, for the refinement
claims; they are compared against the code-side definitions above. -/

/-- Spec wording of the historical point read: the chronologically last
snapshot of the key whose `mod_revision ≤ r`, none when there is no such
snapshot or the last one is a tombstone (`create_revision == 0`). -/
def specHistoricalGet (idx : KVIndexer) (r : Int) (k : Bytes) :
    Option Value :=
  match lookupVals idx.keys_to_values k with
  | none => none
  | some vs =>
    match (vs.filter (fun v => v.mod_revision ≤ r)).getLast? with
    | none => none
    | some s => if s.create_revision == 0 then none else some s

/-- Spec wording of a compare's result operator as a total-order
comparison on an integer field. -/
def specCmpInt (result : CompareResult) (stored target : Int) : Bool :=
  match result with
  | .EQUAL => stored == target
  | .GREATER => stored > target
  | .LESS => stored < target
  | .NOT_EQUAL => stored != target
  | .UNRECOGNIZED => false

/-- Spec wording of a compare's result operator on the byte-string
`value` field (lexicographic order). -/
def specCmpBytes (result : CompareResult) (stored target : Bytes) : Bool :=
  match result with
  | .EQUAL => stored == target
  | .GREATER => bytesLt target stored
  | .LESS => bytesLt stored target
  | .NOT_EQUAL => stored != target
  | .UNRECOGNIZED => false

/-- Spec wording of one compare of a Txn: fetch the key (a key absent
from the store is compared against the default record), extract the
addressed field per `target`, and apply the result operator to it. -/
def specCompareHolds (st : Store) (c : Compare) : Bool :=
  let v := (KVStore.get st c.key).getD Value.default
  match c.target with
  | .VALUE => specCmpBytes c.result v.data (c.value.getD [])
  | .VERSION => specCmpInt c.result v.version (c.version.getD 0)
  | .CREATE => specCmpInt c.result v.create_revision (c.create_revision.getD 0)
  | .MOD => specCmpInt c.result v.mod_revision (c.mod_revision.getD 0)
  | .LEASE => specCmpInt c.result v.lease (c.lease.getD 0)
  | .UNRECOGNIZED => false

/-- A compare that addresses a recognized target with its matching
value field set, no `range_end`, and a recognized result operator. -/
def CompareWF (c : Compare) : Prop :=
  c.range_end = [] ∧ c.result ≠ .UNRECOGNIZED ∧
    (match c.target with
     | .VALUE => c.value.isSome = true
     | .VERSION => c.version.isSome = true
     | .CREATE => c.create_revision.isSome = true
     | .MOD => c.mod_revision.isSome = true
     | .LEASE => c.lease.isSome = true
     | .UNRECOGNIZED => False)

/-! ## Helper lemmas -/

/-- A successful lookup in the records map locates a stored pair. -/
theorem lookupKey_mem {st : Store} {k : Bytes} {e : Entry}
    (h : lookupKey st k = some e) : (k, e) ∈ st := by
  induction st with
  | nil => simp [lookupKey] at h
  | cons p rest ih =>
    obtain ⟨k', e'⟩ := p
    by_cases hk : k' == k
    · simp [lookupKey, hk] at h
      simp_all
    · simp [lookupKey, hk] at h
      exact List.mem_cons_of_mem _ (ih h)

/-- A successful lookup in `keys_to_values` locates a stored pair. -/
theorem lookupVals_mem {m : List (Bytes × List Value)} {k : Bytes}
    {vs : List Value} (h : lookupVals m k = some vs) : (k, vs) ∈ m := by
  induction m with
  | nil => simp [lookupVals] at h
  | cons p rest ih =>
    obtain ⟨k', vs'⟩ := p
    by_cases hk : k' == k
    · simp [lookupVals, hk] at h
      simp_all
    · simp [lookupVals, hk] at h
      exact List.mem_cons_of_mem _ (ih h)

/-- The loop of `find_value`, on a vector sorted by `mod_revision`,
computes: the last snapshot not newer than `atRev` when there is one and
it is not a tombstone; `none` when it is a tombstone; the accumulator
when no snapshot qualifies. -/
theorem find_value_loop_eq_getLast (atRev : Int) (vs : List Value)
    (hsorted : vs.Pairwise (fun a b => a.mod_revision ≤ b.mod_revision)) :
    ∀ acc : Option Value,
      KVIndexer.find_value_loop atRev acc vs =
        match (vs.filter (fun v => v.mod_revision ≤ atRev)).getLast? with
        | none => acc
        | some s => if s.create_revision == 0 then none else some s := by
  induction vs with
  | nil => intro acc; rfl
  | cons v rest ih =>
    rw [List.pairwise_cons] at hsorted
    obtain ⟨hv, hrest⟩ := hsorted
    intro acc
    by_cases hmod : v.mod_revision > atRev
    · have h1 : KVIndexer.find_value_loop atRev acc (v :: rest) = acc := by
        simp [KVIndexer.find_value_loop, hmod]
      have h2 : (v :: rest).filter (fun w => w.mod_revision ≤ atRev) = [] := by
        rw [List.filter_eq_nil_iff]
        intro a ha
        rcases List.mem_cons.mp ha with rfl | hmem
        · simp; omega
        · have := hv a hmem
          simp; omega
      rw [h1, h2]
      rfl
    · push_neg at hmod
      have hfil : (v :: rest).filter (fun w => w.mod_revision ≤ atRev) =
          v :: rest.filter (fun w => w.mod_revision ≤ atRev) := by
        simp [List.filter_cons, hmod]
      by_cases hcr : v.create_revision == 0
      · have h1 : KVIndexer.find_value_loop atRev acc (v :: rest) =
            KVIndexer.find_value_loop atRev none rest := by
          simp [KVIndexer.find_value_loop, hcr]
          omega
        rw [h1, ih hrest none, hfil]
        cases hfr : rest.filter (fun w => w.mod_revision ≤ atRev) with
        | nil => simp [hcr]
        | cons a as =>
          rw [List.getLast?_cons_cons]
          cases hg : (a :: as).getLast? with
          | none => simp at hg
          | some s => rfl
      · have h1 : KVIndexer.find_value_loop atRev acc (v :: rest) =
            KVIndexer.find_value_loop atRev (some v) rest := by
          simp [KVIndexer.find_value_loop, hcr]
          omega
        rw [h1, ih hrest (some v), hfil]
        cases hfr : rest.filter (fun w => w.mod_revision ≤ atRev) with
        | nil => simp [hcr]
        | cons a as =>
          rw [List.getLast?_cons_cons]
          cases hg : (a :: as).getLast? with
          | none => simp at hg
          | some s => rfl

/-- Inserting then looking up the same key. -/
theorem lookupKey_insertKey_self (st : Store) (k : Bytes) (e : Entry) :
    lookupKey (insertKey st k e) k = some e := by
  induction st with
  | nil => simp [insertKey, lookupKey]
  | cons p rest ih =>
    obtain ⟨k', e'⟩ := p
    by_cases hk : k' == k
    · simp [insertKey, hk, lookupKey]
    · simp [insertKey, hk, lookupKey, ih]

/-- Committing a revision for a key updates just that key's
`prevWrite`. -/
theorem lookupKey_commitKey_self (st : Store) (k : Bytes) (rev : Int) :
    lookupKey (commitKey st k rev) k =
      (lookupKey st k).map (fun e => { e with prevWrite := some rev }) := by
  induction st with
  | nil => simp [commitKey, lookupKey]
  | cons p rest ih =>
    obtain ⟨k', e'⟩ := p
    by_cases hk : k' == k
    · simp [commitKey, hk, lookupKey]
    · simp [commitKey, hk, lookupKey, ih]

/-- Erasing a key removes it from the map. -/
theorem lookupKey_eraseKey_self (st : Store) (k : Bytes) :
    lookupKey (eraseKey st k) k = none := by
  induction st with
  | nil => simp [eraseKey, lookupKey]
  | cons p rest ih =>
    obtain ⟨k', e'⟩ := p
    by_cases hk : k' == k
    · simpa [eraseKey, hk, lookupKey] using ih
    · simpa [eraseKey, hk, lookupKey] using ih

/-- When keys are distinct, membership determines lookup. -/
theorem lookupKey_of_mem_nodup {st : Store} {k : Bytes} {e : Entry}
    (hnodup : (st.map Prod.fst).Nodup) (hmem : (k, e) ∈ st) :
    lookupKey st k = some e := by
  induction st with
  | nil => simp at hmem
  | cons p rest ih =>
    obtain ⟨k', e'⟩ := p
    simp only [List.map_cons, List.nodup_cons] at hnodup
    rcases List.mem_cons.mp hmem with heq | hmem'
    · obtain ⟨rfl, rfl⟩ := Prod.mk.injEq .. ▸ heq
      simp [lookupKey]
    · have hk : (k' == k) = false := by
        rw [beq_eq_false_iff_ne]
        rintro rfl
        exact hnodup.1 (List.mem_map.mpr ⟨(k', e), hmem', rfl⟩)
      simp only [lookupKey, hk, Bool.false_eq_true, if_false]
      exact ih hnodup.2 hmem'

/-- The response list built by folding `add_kv` over visited pairs: the
initial list followed by the `KeyValue` of every pair that passes the
lease filter. -/
theorem add_kv_foldl_kvs (env : Env) (pairs : List (Bytes × Value)) :
    ∀ acc : RangeResponse,
      (pairs.foldl (fun a p => add_kv env a p.1 p.2) acc).kvs =
        acc.kvs ++
          (pairs.filter (fun p =>
            !(p.2.lease != 0 &&
              !(LeaseStore.contains env.lmap p.2.lease env.now)))).map
            (fun p => mkKeyValue p.1 p.2) := by
  induction pairs with
  | nil => intro acc; simp
  | cons q rest ih =>
    intro acc
    rw [List.foldl_cons]
    by_cases hq :
        (q.2.lease != 0 && !(LeaseStore.contains env.lmap q.2.lease env.now)) =
          true
    · rw [show add_kv env acc q.1 q.2 = acc from by simp [add_kv, hq], ih]
      simp [List.filter_cons, hq]
      rw [if_neg (by simp_all)]
    · rw [show add_kv env acc q.1 q.2 =
            ⟨acc.kvs ++ [mkKeyValue q.1 q.2], acc.count + 1⟩ from by
          simp only [add_kv]
          rw [if_neg (by simp_all)],
        ih]
      simp only [List.filter_cons]
      rw [if_pos (by simp_all; tauto)]
      simp

/-- A well-formed compare evaluates without error, to its spec-level
outcome. -/
theorem compareOutcome_eq_spec (st : Store) (c : Compare)
    (hwf : CompareWF c) :
    compareOutcome st c = .ok (specCompareHolds st c) := by
  obtain ⟨hre, hres, htgt⟩ := hwf
  have hre' : (c.range_end == []) = true := by simp [hre]
  unfold compareOutcome specCompareHolds
  rw [hre']
  simp only [Bool.not_true, Bool.false_eq_true, if_false]
  cases ht : c.target <;> rw [ht] at htgt
  case UNRECOGNIZED => simp at htgt
  case VALUE =>
    have htgt' : c.value.isSome = true := htgt
    obtain ⟨tv, htv⟩ := Option.isSome_iff_exists.mp htgt'
    rw [htv]
    cases hr : c.result <;> (try simp_all) <;>
      simp [txn_compareBytes, specCmpBytes, hr]
  case VERSION =>
    have htgt' : c.version.isSome = true := htgt
    obtain ⟨tv, htv⟩ := Option.isSome_iff_exists.mp htgt'
    rw [htv]
    cases hr : c.result <;> (try simp_all) <;>
      simp [txn_compareInt, specCmpInt, hr]
  case CREATE =>
    have htgt' : c.create_revision.isSome = true := htgt
    obtain ⟨tv, htv⟩ := Option.isSome_iff_exists.mp htgt'
    rw [htv]
    cases hr : c.result <;> (try simp_all) <;>
      simp [txn_compareInt, specCmpInt, hr]
  case MOD =>
    have htgt' : c.mod_revision.isSome = true := htgt
    obtain ⟨tv, htv⟩ := Option.isSome_iff_exists.mp htgt'
    rw [htv]
    cases hr : c.result <;> (try simp_all) <;>
      simp [txn_compareInt, specCmpInt, hr]
  case LEASE =>
    have htgt' : c.lease.isSome = true := htgt
    obtain ⟨tv, htv⟩ := Option.isSome_iff_exists.mp htgt'
    rw [htv]
    cases hr : c.result <;> (try simp_all) <;>
      simp [txn_compareInt, specCmpInt, hr]

/-- The compare loop of `txn` conjoins the spec-level outcome of every
well-formed compare onto the accumulator. -/
theorem evalCompares_eq_all (st : Store) (cs : List Compare)
    (hwf : ∀ c ∈ cs, CompareWF c) :
    ∀ b : Bool,
      evalCompares st cs b =
        .ok (b && cs.all (fun c => specCompareHolds st c)) := by
  induction cs with
  | nil => intro b; simp [evalCompares]
  | cons c rest ih =>
    intro b
    simp only [evalCompares, compareOutcome_eq_spec st c (hwf c (by simp))]
    rw [ih (fun c hc => hwf c (List.mem_cons_of_mem _ hc))]
    simp [Bool.and_assoc]

/-- On a revision map sorted strictly ascending, every entry surviving
the leading erase loop of `compact` has revision at least `atRev`. -/
theorem dropWhile_rev_ge (atRev : Int) (l : List (Int × List Bytes))
    (hsorted : l.Pairwise (fun a b => a.1 < b.1)) :
    ∀ q ∈ l.dropWhile (fun p => p.1 < atRev), atRev ≤ q.1 := by
  induction l with
  | nil => simp
  | cons x xs ih =>
    rw [List.pairwise_cons] at hsorted
    by_cases hx : x.1 < atRev
    · rw [List.dropWhile_cons_of_pos (by simp [hx])]
      exact ih hsorted.2
    · rw [List.dropWhile_cons_of_neg (by simp [hx])]
      intro q hq
      rcases List.mem_cons.mp hq with rfl | hq'
      · omega
      · have := hsorted.1 q hq'
        omega

/-- On a snapshot vector sorted by `mod_revision`, every snapshot
surviving the trim loop of `compact` has `mod_revision ≥ atRev`. -/
theorem dropWhile_mod_ge (atRev : Int) (vs : List Value)
    (hsorted : vs.Pairwise (fun a b => a.mod_revision ≤ b.mod_revision)) :
    ∀ v ∈ vs.dropWhile (fun v => v.mod_revision < atRev),
      atRev ≤ v.mod_revision := by
  induction vs with
  | nil => simp
  | cons x xs ih =>
    rw [List.pairwise_cons] at hsorted
    by_cases hx : x.mod_revision < atRev
    · rw [List.dropWhile_cons_of_pos (by simp [hx])]
      exact ih hsorted.2
    · rw [List.dropWhile_cons_of_neg (by simp [hx])]
      intro v hv
      rcases List.mem_cons.mp hv with rfl | hv'
      · omega
      · have := hsorted.1 v hv'
        omega

/-- Replacing a key's vector does not disturb other keys. -/
theorem lookupVals_setVals_ne (m : List (Bytes × List Value))
    (k k' : Bytes) (vs : List Value) (h : k' ≠ k) :
    lookupVals (setVals m k vs) k' = lookupVals m k' := by
  induction m with
  | nil => simp [setVals]
  | cons p rest ih =>
    obtain ⟨k0, vs0⟩ := p
    by_cases hk : k0 == k
    · have : (k == k') = false := by
        rw [beq_eq_false_iff_ne]
        exact fun he => h he.symm
      simp [setVals, hk, lookupVals, this]
      rw [← (beq_iff_eq ..).mp hk] at *
      simp_all [lookupVals]
    · simp [setVals, hk, lookupVals, ih]

/-- Replacing a present key's vector is observed by lookup. -/
theorem lookupVals_setVals_self (m : List (Bytes × List Value))
    (k : Bytes) (vs vs0 : List Value) (h : lookupVals m k = some vs0) :
    lookupVals (setVals m k vs) k = some vs := by
  induction m with
  | nil => simp [lookupVals] at h
  | cons p rest ih =>
    obtain ⟨k0, vs1⟩ := p
    by_cases hk : k0 == k
    · simp [setVals, hk, lookupVals]
    · simp only [lookupVals, hk, Bool.false_eq_true, if_false] at h
      simp [setVals, hk, lookupVals, ih h]

/-- An erased key looks up to nothing. -/
theorem lookupVals_eraseVals_self (m : List (Bytes × List Value))
    (k : Bytes) : lookupVals (eraseVals m k) k = none := by
  induction m with
  | nil => simp [eraseVals, lookupVals]
  | cons p rest ih =>
    obtain ⟨k0, vs0⟩ := p
    by_cases hk : k0 == k
    · simpa [eraseVals, hk, lookupVals] using ih
    · simpa [eraseVals, hk, lookupVals] using ih

/-- Erasing a key does not disturb other keys. -/
theorem lookupVals_eraseVals_ne (m : List (Bytes × List Value))
    (k k' : Bytes) (h : k' ≠ k) :
    lookupVals (eraseVals m k) k' = lookupVals m k' := by
  induction m with
  | nil => simp [eraseVals]
  | cons p rest ih =>
    obtain ⟨k0, vs0⟩ := p
    simp only [eraseVals, List.filter_cons] at *
    by_cases hk : k0 == k
    · have hkk' : (k0 == k') = false := by
        rw [beq_eq_false_iff_ne, (beq_iff_eq ..).mp hk]
        exact fun he => h he.symm
      rw [show (!(k0 == k)) = false by simp [hk]]
      simp only [Bool.false_eq_true, if_false]
      rw [ih, lookupVals, hkk']
      simp
    · rw [show (!(k0 == k)) = true by simp [hk]]
      simp only [if_true]
      rw [lookupVals, lookupVals]
      by_cases hkk' : k0 == k'
      · simp [hkk']
      · simp [hkk', ih]

/-- What a successful `compactKey` did: the key was present, and its
vector was trimmed from the front (the key being erased when nothing
remained). -/
theorem compactKey_some {m m' : List (Bytes × List Value)} {k : Bytes}
    {atRev : Int} (h : KVIndexer.compactKey m k atRev = some m') :
    ∃ vs, lookupVals m k = some vs ∧
      m' = (if (vs.dropWhile (fun v => v.mod_revision < atRev)).isEmpty
            then eraseVals m k
            else setVals m k
              (vs.dropWhile (fun v => v.mod_revision < atRev))) := by
  unfold KVIndexer.compactKey at h
  cases hlv : lookupVals m k with
  | none => rw [hlv] at h; exact absurd h (by simp)
  | some vs =>
    simp only [hlv] at h
    refine ⟨vs, rfl, ?_⟩
    by_cases he : (vs.dropWhile (fun v => v.mod_revision < atRev)).isEmpty
    · rw [if_pos he]
      simp only [he, if_true, Option.some.injEq] at h
      exact h.symm
    · rw [if_neg he]
      simp only [he, Bool.false_eq_true, if_false, Option.some.injEq] at h
      exact h.symm

/-- Folding `compactKey` over keys from a failed accumulator stays
failed. -/
theorem fold_compactKey_none (atRev : Int) (keys : List Bytes) :
    keys.foldl
      (fun acc key => acc.bind (fun mm => KVIndexer.compactKey mm key atRev))
      none = none := by
  induction keys with
  | nil => rfl
  | cons key ks ih => simpa using ih

/-- The effect of the per-key trim loop of `compact` on lookups: keys
outside the collected set are untouched; every collected key was
present and its vector is trimmed from the front, the key disappearing
when the trim empties it. -/
theorem fold_compactKey_lookup (atRev : Int) :
    ∀ (keys : List Bytes) (m m' : List (Bytes × List Value)),
      keys.Nodup →
      keys.foldl
        (fun acc key =>
          acc.bind (fun mm => KVIndexer.compactKey mm key atRev))
        (some m) = some m' →
      (∀ k, k ∉ keys → lookupVals m' k = lookupVals m k) ∧
      (∀ k ∈ keys, ∃ vs, lookupVals m k = some vs ∧
        lookupVals m' k =
          (if (vs.dropWhile (fun v => v.mod_revision < atRev)).isEmpty
           then none
           else some (vs.dropWhile (fun v => v.mod_revision < atRev)))) := by
  intro keys
  induction keys with
  | nil =>
    intro m m' _ hfold
    simp only [List.foldl_nil, Option.some.injEq] at hfold
    subst hfold
    exact ⟨fun _ _ => rfl, fun k hk => absurd hk (by simp)⟩
  | cons key ks ih =>
    intro m m' hnodup hfold
    rw [List.nodup_cons] at hnodup
    rw [List.foldl_cons, Option.some_bind] at hfold
    cases hck : KVIndexer.compactKey m key atRev with
    | none =>
      rw [hck, fold_compactKey_none] at hfold
      exact absurd hfold (by simp)
    | some m1 =>
      rw [hck] at hfold
      obtain ⟨h1, h2⟩ := ih m1 m' hnodup.2 hfold
      obtain ⟨vs, hvs, hm1⟩ := compactKey_some hck
      have hm1k : ∀ k', k' ≠ key → lookupVals m1 k' = lookupVals m k' := by
        intro k' hne
        rw [hm1]
        by_cases he : (vs.dropWhile (fun v => v.mod_revision < atRev)).isEmpty
        · rw [if_pos he, lookupVals_eraseVals_ne _ _ _ hne]
        · rw [if_neg he, lookupVals_setVals_ne _ _ _ _ hne]
      constructor
      · intro k hk
        rw [List.mem_cons, not_or] at hk
        rw [h1 k hk.2, hm1k k hk.1]
      · intro k hk
        rcases List.mem_cons.mp hk with rfl | hk'
        · refine ⟨vs, hvs, ?_⟩
          rw [h1 k hnodup.1, hm1]
          by_cases he :
              (vs.dropWhile (fun v => v.mod_revision < atRev)).isEmpty
          · rw [if_pos he, if_pos he, lookupVals_eraseVals_self]
          · rw [if_neg he, if_neg he,
              lookupVals_setVals_self _ _ _ _ hvs]
        · have hne : k ≠ key := fun he => hnodup.1 (he ▸ hk')
          obtain ⟨vs', hvs', heq⟩ := h2 k hk'
          rw [hm1k k hne] at hvs'
          exact ⟨vs', hvs', heq⟩

/-! ## Claims -/

/-- C1: for a key whose entry has a committed previous write `pw ≥ 1`
(any key present between transactions), a committed overwrite at
revision `rev ≥ pw` stores a record with `version = old.version + 1`,
the old record's `create_revision`, and `mod_revision = rev ≥
old.mod_revision`; after a remove, the key reads as absent, and a
subsequent committed put at revision `rev'` starts a fresh incarnation
with `version = 1` and the new `create_revision = rev'`. -/
theorem kvstore_put_version_and_create_revision (st : Store)
    (k d d' : Bytes) (l l' rev rev' pw : Int) (e : Entry)
    (hlk : lookupKey st k = some e) (hpw : e.prevWrite = some pw)
    (hpw1 : 1 ≤ pw) (hrev : pw ≤ rev) :
    KVStore.get st k = some (KVStore.hydrate_value e) ∧
    (commitPut st k d l rev).1 = some (KVStore.hydrate_value e) ∧
    KVStore.get (commitPut st k d l rev).2 k =
      some { data := d,
             create_revision := (KVStore.hydrate_value e).create_revision,
             mod_revision := rev,
             version := (KVStore.hydrate_value e).version + 1,
             lease := l } ∧
    (KVStore.hydrate_value e).mod_revision ≤ rev ∧
    KVStore.get (KVStore.remove st k).2 k = none ∧
    KVStore.get (commitPut (KVStore.remove st k).2 k d' l' rev').2 k =
      some { data := d', create_revision := rev', mod_revision := rev',
             version := 1, lease := l' } := by
  have hget : KVStore.get st k = some (KVStore.hydrate_value e) := by
    simp [KVStore.get, hlk]
  have hcr : ((KVStore.hydrate_value e).create_revision == 0) = false := by
    simp only [KVStore.hydrate_value, Value.hydrate, hpw]
    by_cases hc : e.value.create_revision == 0 <;> (simp_all; try omega)
  have hmod : (KVStore.hydrate_value e).mod_revision = pw := by
    simp [KVStore.hydrate_value, Value.hydrate, hpw]
  have hcr' : (((if e.value.create_revision = 0 then
      { e.value with create_revision := e.prevWrite.getD 0 }
      else e.value) : Value).create_revision == 0) = false := by
    by_cases hc : e.value.create_revision = 0 <;>
      (simp [hc, hpw, beq_eq_false_iff_ne]; try omega)
  refine ⟨hget, ?_, ?_, ?_, ?_, ?_⟩
  · simp [commitPut, KVStore.put, hget]
  · simp only [commitPut, KVStore.put, hget, hcr, Bool.false_eq_true,
      if_false, hlk, Option.bind_some, hpw]
    rw [KVStore.get, lookupKey_commitKey_self, lookupKey_insertKey_self]
    simp [KVStore.hydrate_value, Value.hydrate, Value.ofData, hcr']
  · rw [hmod]; exact hrev
  · simp [KVStore.get, KVStore.remove, lookupKey_eraseKey_self]
  · simp only [commitPut, KVStore.put, KVStore.remove, KVStore.get,
      lookupKey_eraseKey_self, Option.map_none, Option.bind_none]
    rw [lookupKey_commitKey_self, lookupKey_insertKey_self]
    simp [KVStore.hydrate_value, Value.hydrate, Value.ofData]

/-- Witness for C1 at a concrete one-key store. -/
theorem kvstore_put_version_and_create_revision_witness :
    KVStore.get [([97], ⟨⟨[49], 0, 0, 1, 0⟩, some 5⟩)] [97] =
      some (KVStore.hydrate_value ⟨⟨[49], 0, 0, 1, 0⟩, some 5⟩) ∧
    (commitPut [([97], ⟨⟨[49], 0, 0, 1, 0⟩, some 5⟩)] [97] [50] 0 7).1 =
      some (KVStore.hydrate_value ⟨⟨[49], 0, 0, 1, 0⟩, some 5⟩) ∧
    KVStore.get
        (commitPut [([97], ⟨⟨[49], 0, 0, 1, 0⟩, some 5⟩)] [97] [50] 0 7).2
        [97] =
      some { data := [50],
             create_revision :=
               (KVStore.hydrate_value
                 ⟨⟨[49], 0, 0, 1, 0⟩, some 5⟩).create_revision,
             mod_revision := 7,
             version :=
               (KVStore.hydrate_value ⟨⟨[49], 0, 0, 1, 0⟩, some 5⟩).version + 1,
             lease := 0 } ∧
    (KVStore.hydrate_value ⟨⟨[49], 0, 0, 1, 0⟩, some 5⟩).mod_revision ≤ 7 ∧
    KVStore.get
        (KVStore.remove [([97], ⟨⟨[49], 0, 0, 1, 0⟩, some 5⟩)] [97]).2 [97] =
      none ∧
    KVStore.get
        (commitPut
          (KVStore.remove [([97], ⟨⟨[49], 0, 0, 1, 0⟩, some 5⟩)] [97]).2
          [97] [51] 0 9).2 [97] =
      some { data := [51], create_revision := 9, mod_revision := 9,
             version := 1, lease := 0 } :=
  kvstore_put_version_and_create_revision
    [([97], ⟨⟨[49], 0, 0, 1, 0⟩, some 5⟩)] [97] [50] [51] 0 0 7 9 5
    ⟨⟨[49], 0, 0, 1, 0⟩, some 5⟩ rfl rfl (by decide) (by decide)

/-- C2: on any index whose per-key vectors are sorted by `mod_revision`
(the documented index invariant), the historical point read
`get(r, k)` returns the chronologically last snapshot of `k` with
`mod_revision ≤ r` — `none` when there is no such snapshot or the last
such snapshot is a tombstone (`create_revision == 0`) — and every value
it returns has `mod_revision ≤ r`. -/
theorem index_get_matches_historical_spec (idx : KVIndexer) (r : Int)
    (k : Bytes) (v : Value)
    (hsorted : ∀ p ∈ idx.keys_to_values,
      (p.2 : List Value).Pairwise (fun a b => a.mod_revision ≤ b.mod_revision)) :
    KVIndexer.get idx r k = specHistoricalGet idx r k ∧
    (KVIndexer.get idx r k = some v → v.mod_revision ≤ r) := by
  have hmain : KVIndexer.get idx r k = specHistoricalGet idx r k := by
    unfold KVIndexer.get specHistoricalGet
    cases hlv : lookupVals idx.keys_to_values k with
    | none => simp
    | some vs =>
      have hs := hsorted (k, vs) (lookupVals_mem hlv)
      simp only
      unfold KVIndexer.find_value
      exact find_value_loop_eq_getLast r vs hs none
  refine ⟨hmain, ?_⟩
  intro hv
  unfold KVIndexer.get at hv
  cases hlv : lookupVals idx.keys_to_values k with
  | none => simp [hlv] at hv
  | some vs =>
    simp only [hlv] at hv
    have hs := hsorted (k, vs) (lookupVals_mem hlv)
    unfold KVIndexer.find_value at hv
    rw [find_value_loop_eq_getLast r vs hs none] at hv
    cases hg : (vs.filter (fun w => w.mod_revision ≤ r)).getLast? with
    | none => simp [hg] at hv
    | some s =>
      simp only [hg] at hv
      by_cases hcr : s.create_revision == 0
      · simp [hcr] at hv
      · simp only [hcr, if_false, Bool.false_eq_true, if_neg,
          Option.some.injEq] at hv
        have hmem : s ∈ vs.filter (fun w => w.mod_revision ≤ r) :=
          List.mem_of_mem_getLast? hg
        have hle := (List.mem_filter.mp hmem).2
        subst hv
        simpa using hle

/-- Witness for C2 at a concrete index holding two snapshots of key
`[97]` at revisions 5 and 7, read at revision 6. -/
theorem index_get_matches_historical_spec_witness :
    (KVIndexer.get
        ⟨[(5, [[97]]), (7, [[97]])],
         [([97], [⟨[49], 5, 5, 1, 0⟩, ⟨[50], 7, 7, 2, 0⟩])], 7⟩ 6 [97] =
      specHistoricalGet
        ⟨[(5, [[97]]), (7, [[97]])],
         [([97], [⟨[49], 5, 5, 1, 0⟩, ⟨[50], 7, 7, 2, 0⟩])], 7⟩ 6 [97]) ∧
    (KVIndexer.get
        ⟨[(5, [[97]]), (7, [[97]])],
         [([97], [⟨[49], 5, 5, 1, 0⟩, ⟨[50], 7, 7, 2, 0⟩])], 7⟩ 6 [97] =
        some ⟨[49], 5, 5, 1, 0⟩ →
      (⟨[49], 5, 5, 1, 0⟩ : Value).mod_revision ≤ 6) :=
  index_get_matches_historical_spec _ 6 [97] ⟨[49], 5, 5, 1, 0⟩ (by decide)

/-- C5: an accepted current-state Range request over `[a, b)` responds
with exactly those keys `k`, `a ≤ k < b`, that are present in the live
map and whose (hydrated) record has `lease = 0` or a lease that is
`contains`-positive at `now_s`; filtered records stay in the map — the
handler returns only a response and no store. -/
theorem range_current_filters_by_interval_and_lease (env : Env)
    (st : Store) (req : RangeRequest) (k : Bytes)
    (hnodup : (st.map Prod.fst).Nodup)
    (hcur : req.revision ≤ 0)
    (hend1 : req.range_end ≠ []) (hend2 : req.range_end ≠ [0])
    (hlimit : req.limit = 0) (hsort : req.sort_order = 0)
    (hko : req.keys_only = false) (hco : req.count_only = false)
    (hmm1 : req.min_mod_revision = 0) (hmm2 : req.max_mod_revision = 0)
    (hmc1 : req.min_create_revision = 0) (hmc2 : req.max_create_revision = 0) :
    ∃ resp : RangeResponse, rangeHandler env st req = .ok resp ∧
      ((∃ item ∈ resp.kvs, item.key = k) ↔
        ∃ e : Entry, lookupKey st k = some e ∧
          bytesLe req.key k = true ∧ bytesLt k req.range_end = true ∧
          ((KVStore.hydrate_value e).lease = 0 ∨
            LeaseStore.contains env.lmap (KVStore.hydrate_value e).lease
              env.now = true)) := by
  have hrev : ¬(req.revision > 0) := by omega
  have hresp : rangeHandler env st req =
      .ok ((KVStore.range st req.key (some req.range_end)).foldl
        (fun acc p => add_kv env acc p.1 p.2) ⟨[], 0⟩) := by
    simp [rangeHandler, hlimit, hsort, hko, hco, hmm1, hmm2, hmc1, hmc2,
      hend1, hend2, hrev]
  refine ⟨_, hresp, ?_⟩
  rw [add_kv_foldl_kvs]
  constructor
  · rintro ⟨item, hitem, hik⟩
    simp only [List.nil_append, List.mem_map] at hitem
    obtain ⟨p, hp, rfl⟩ := hitem
    rw [List.mem_filter] at hp
    obtain ⟨hpr, hplease⟩ := hp
    unfold KVStore.range at hpr
    rw [List.mem_map] at hpr
    obtain ⟨q, hq, rfl⟩ := hpr
    rw [List.mem_filter] at hq
    obtain ⟨hqmem, hqrange⟩ := hq
    simp only [mkKeyValue] at hik
    subst hik
    simp only [Bool.and_eq_true] at hqrange
    refine ⟨q.2, lookupKey_of_mem_nodup hnodup hqmem, hqrange.1, ?_, ?_⟩
    · simpa using hqrange.2
    · simp only [Bool.not_eq_true', Bool.and_eq_false_iff,
        bne_eq_false_iff_eq, Bool.not_eq_false] at hplease
      rcases hplease with h | h
      · exact Or.inl h
      · exact Or.inr (by simpa using h)
  · rintro ⟨e, hlk, hge, hlt, hlease⟩
    have hmem := lookupKey_mem hlk
    refine ⟨mkKeyValue k (KVStore.hydrate_value e), ?_, by simp [mkKeyValue]⟩
    simp only [List.nil_append, List.mem_map]
    refine ⟨(k, KVStore.hydrate_value e), ?_, rfl⟩
    rw [List.mem_filter]
    constructor
    · unfold KVStore.range
      rw [List.mem_map]
      exact ⟨(k, e), List.mem_filter.mpr ⟨hmem, by simp [hge, hlt]⟩, rfl⟩
    · simp only [Bool.not_eq_true', Bool.and_eq_false_iff,
        bne_eq_false_iff_eq, Bool.not_eq_false]
      rcases hlease with h | h
      · exact Or.inl h
      · exact Or.inr (by simpa using h)

/-- Witness for C5 at a concrete store of three keys, one bound to an
expired lease. -/
theorem range_current_filters_by_interval_and_lease_witness :
    ∃ resp : RangeResponse,
      rangeHandler ⟨[(7, ⟨5, 10⟩)], ⟨[], [], 0⟩, 20⟩
          [([97], ⟨⟨[49], 0, 0, 1, 0⟩, some 5⟩),
           ([98], ⟨⟨[50], 0, 0, 1, 7⟩, some 6⟩),
           ([99], ⟨⟨[51], 0, 0, 1, 0⟩, some 7⟩)]
          ⟨[97], [99], 0, 0, 0, false, false, 0, 0, 0, 0⟩ = .ok resp ∧
      ((∃ item ∈ resp.kvs, item.key = [98]) ↔
        ∃ e : Entry,
          lookupKey
              [([97], ⟨⟨[49], 0, 0, 1, 0⟩, some 5⟩),
               ([98], ⟨⟨[50], 0, 0, 1, 7⟩, some 6⟩),
               ([99], ⟨⟨[51], 0, 0, 1, 0⟩, some 7⟩)] [98] = some e ∧
          bytesLe [97] [98] = true ∧ bytesLt [98] [99] = true ∧
          ((KVStore.hydrate_value e).lease = 0 ∨
            LeaseStore.contains [(7, ⟨5, 10⟩)]
              (KVStore.hydrate_value e).lease 20 = true)) :=
  range_current_filters_by_interval_and_lease
    ⟨[(7, ⟨5, 10⟩)], ⟨[], [], 0⟩, 20⟩
    [([97], ⟨⟨[49], 0, 0, 1, 0⟩, some 5⟩),
     ([98], ⟨⟨[50], 0, 0, 1, 7⟩, some 6⟩),
     ([99], ⟨⟨[51], 0, 0, 1, 0⟩, some 7⟩)]
    ⟨[97], [99], 0, 0, 0, false, false, 0, 0, 0, 0⟩ [98]
    (by decide) (by decide) (by decide) (by decide) rfl rfl rfl rfl rfl rfl
    rfl rfl

/-- C3: on an index satisfying the documented invariants (revision map
strictly ascending, per-key vectors sorted by `mod_revision` and
nonempty, every snapshot recorded under its revision in
`revisions_to_keys`), a completed `compact(R)` leaves: for every key
still in `keys_to_history` a nonempty vector all of whose snapshots
have `mod_revision ≥ R` (hence at least one such snapshot, and no
snapshot below `R`; a key whose vector empties is removed); and no
entry of `revisions_to_keys` with revision `< R`. -/
theorem index_compact_erases_below (idx : KVIndexer) (atRev : Int)
    (idx' : KVIndexer)
    (hRevSorted : idx.revisions_to_key.Pairwise (fun a b => a.1 < b.1))
    (hValSorted : ∀ p ∈ idx.keys_to_values,
      (p.2 : List Value).Pairwise
        (fun a b => a.mod_revision ≤ b.mod_revision))
    (hNonempty : ∀ p ∈ idx.keys_to_values, (p.2 : List Value) ≠ [])
    (hLink : ∀ p ∈ idx.keys_to_values, ∀ v ∈ (p.2 : List Value),
      ∃ q ∈ idx.revisions_to_key, q.1 = v.mod_revision ∧ p.1 ∈ q.2)
    (hcompact : KVIndexer.compact idx atRev = some idx') :
    (∀ k vs, lookupVals idx'.keys_to_values k = some vs →
      vs ≠ [] ∧ (∀ v ∈ vs, atRev ≤ v.mod_revision) ∧
      ∃ v ∈ vs, atRev ≤ v.mod_revision) ∧
    (∀ q ∈ idx'.revisions_to_key, atRev ≤ q.1) := by
  rcases hrtk : idx.revisions_to_key with _ | ⟨p0, rest0⟩
  · simp [KVIndexer.compact, hrtk] at hcompact
  · rw [hrtk] at hRevSorted hLink
    simp only [KVIndexer.compact, hrtk] at hcompact
    cases hfold : List.foldl
        (fun acc key => acc.bind fun m => KVIndexer.compactKey m key atRev)
        (some idx.keys_to_values)
        (((p0 :: rest0).takeWhile (fun p => p.1 < atRev)).flatMap
          (fun p => p.2)).dedup with
    | none =>
      rw [hfold] at hcompact
      have habs : (none : Option KVIndexer) = some idx' := hcompact
      exact absurd habs (by simp)
    | some m =>
      rw [hfold] at hcompact
      have h2 : some ({ idx with
          revisions_to_key := (p0 :: rest0).dropWhile (fun p => p.1 < atRev),
          keys_to_values := m } : KVIndexer) = some idx' := hcompact
      have h3 : idx' = { idx with
          revisions_to_key := (p0 :: rest0).dropWhile (fun p => p.1 < atRev),
          keys_to_values := m } := (Option.some.injEq .. ▸ h2).symm
      subst h3
      obtain ⟨huntouched, htouched⟩ :=
        fold_compactKey_lookup atRev
          (((p0 :: rest0).takeWhile (fun p => p.1 < atRev)).flatMap
            (fun p => p.2)).dedup
          idx.keys_to_values m (List.nodup_dedup _) hfold
      constructor
      · intro k vs hlv
        by_cases hk : k ∈
            (((p0 :: rest0).takeWhile (fun p => p.1 < atRev)).flatMap
              (fun p => p.2)).dedup
        · obtain ⟨vs0, hvs0, heq⟩ := htouched k hk
          rw [heq] at hlv
          by_cases he :
              (vs0.dropWhile (fun v => v.mod_revision < atRev)).isEmpty
          · rw [if_pos he] at hlv
            exact absurd hlv (by simp)
          · rw [if_neg he] at hlv
            have hvs : vs = vs0.dropWhile (fun v => v.mod_revision < atRev) :=
              (Option.some.injEq .. ▸ hlv).symm
            subst hvs
            have hsorted0 := hValSorted (k, vs0) (lookupVals_mem hvs0)
            have hge := dropWhile_mod_ge atRev vs0 hsorted0
            have hne : vs0.dropWhile (fun v => v.mod_revision < atRev) ≠ [] := by
              intro hnil
              rw [hnil] at he
              exact he rfl
            refine ⟨hne, hge, ?_⟩
            obtain ⟨v, hv⟩ := List.exists_mem_of_ne_nil _ hne
            exact ⟨v, hv, hge v hv⟩
        · rw [huntouched k hk] at hlv
          have hmem := lookupVals_mem hlv
          have hne := hNonempty (k, vs) hmem
          have hge : ∀ v ∈ vs, atRev ≤ v.mod_revision := by
            intro v hv
            by_contra hlt
            push_neg at hlt
            obtain ⟨q, hq, hqrev, hkq⟩ := hLink (k, vs) hmem v hv
            rw [← List.takeWhile_append_dropWhile
              (fun p => p.1 < atRev) (p0 :: rest0)] at hq
            rcases List.mem_append.mp hq with hqt | hqd
            · exact hk (List.mem_dedup.mpr
                (List.mem_flatMap.mpr ⟨q, hqt, hkq⟩))
            · have := dropWhile_rev_ge atRev (p0 :: rest0) hRevSorted q hqd
              omega
          refine ⟨hne, hge, ?_⟩
          obtain ⟨v, hv⟩ := List.exists_mem_of_ne_nil _ hne
          exact ⟨v, hv, hge v hv⟩
      · exact dropWhile_rev_ge atRev (p0 :: rest0) hRevSorted

/-- Witness for C3: an index with revisions 5, 7, 9 for key `[97]` and
revision 9 for `[98]`, compacted at 8. -/
theorem index_compact_erases_below_witness :
    (∀ k vs,
      lookupVals
          (KVIndexer.mk [(9, [[97], [98]])]
            [([97], [⟨[51], 5, 9, 3, 0⟩]), ([98], [⟨[52], 9, 9, 1, 0⟩])]
            9).keys_to_values k = some vs →
      vs ≠ [] ∧ (∀ v ∈ vs, (8 : Int) ≤ v.mod_revision) ∧
      ∃ v ∈ vs, (8 : Int) ≤ v.mod_revision) ∧
    (∀ q ∈ (KVIndexer.mk [(9, [[97], [98]])]
        [([97], [⟨[51], 5, 9, 3, 0⟩]), ([98], [⟨[52], 9, 9, 1, 0⟩])]
        9).revisions_to_key, (8 : Int) ≤ q.1) :=
  index_compact_erases_below
    ⟨[(5, [[97]]), (7, [[97]]), (9, [[97], [98]])],
     [([97], [⟨[49], 5, 5, 1, 0⟩, ⟨[50], 5, 7, 2, 0⟩, ⟨[51], 5, 9, 3, 0⟩]),
      ([98], [⟨[52], 9, 9, 1, 0⟩])], 9⟩ 8
    ⟨[(9, [[97], [98]])],
     [([97], [⟨[51], 5, 9, 3, 0⟩]), ([98], [⟨[52], 9, 9, 1, 0⟩])], 9⟩
    (by decide) (by decide) (by decide) (by decide) (by decide)

/-- C4: for a Txn whose compares are well formed (recognized target
with its matching value field set, recognized result operator, no
range_end), the handler's `succeeded` is the logical AND over all
compares of applying the result operator to the addressed field (a key
absent from the store comparing as the default record), and the success
op list is executed when it holds, the failure op list otherwise — the
result being exactly that branch's execution, errors propagating. -/
theorem txn_succeeded_is_and_of_compares (env : Env) (st : Store)
    (t : TxnRequest)
    (hwf : ∀ c ∈ t.compare, CompareWF c) :
    txnHandler env st t =
      (match evalOps env st
          (if t.compare.all (fun c => specCompareHolds st c) then t.success
           else t.failure) with
       | .error e => .error e
       | .ok (resps, st') =>
         .ok (⟨t.compare.all (fun c => specCompareHolds st c), resps⟩,
           st')) := by
  obtain ⟨cs, succs, fails⟩ := t
  simp only [TxnRequest.compare] at hwf
  simp only [TxnRequest.compare, TxnRequest.success, TxnRequest.failure]
  rw [txnHandler]
  rw [evalCompares_eq_all st cs hwf true]
  simp

/-- Witness for C4: one VERSION==1 compare against a one-key store,
success branch a put. -/
theorem txn_succeeded_is_and_of_compares_witness :
    txnHandler ⟨[], ⟨[], [], 0⟩, 0⟩ [([97], ⟨⟨[49], 0, 0, 1, 0⟩, some 5⟩)]
        (.mk [⟨.VERSION, .EQUAL, [97], [], none, some 1, none, none, none⟩]
          [.requestPut ⟨[97], [50], 0, false, false, false⟩] []) =
      (match evalOps ⟨[], ⟨[], [], 0⟩, 0⟩
          [([97], ⟨⟨[49], 0, 0, 1, 0⟩, some 5⟩)]
          (if (TxnRequest.mk
                [⟨.VERSION, .EQUAL, [97], [], none, some 1, none, none, none⟩]
                [.requestPut ⟨[97], [50], 0, false, false, false⟩]
                []).compare.all
              (fun c =>
                specCompareHolds [([97], ⟨⟨[49], 0, 0, 1, 0⟩, some 5⟩)] c) then
            (TxnRequest.mk
              [⟨.VERSION, .EQUAL, [97], [], none, some 1, none, none, none⟩]
              [.requestPut ⟨[97], [50], 0, false, false, false⟩] []).success
          else
            (TxnRequest.mk
              [⟨.VERSION, .EQUAL, [97], [], none, some 1, none, none, none⟩]
              [.requestPut ⟨[97], [50], 0, false, false, false⟩]
              []).failure) with
       | .error e => .error e
       | .ok (resps, st') =>
         .ok
           (⟨(TxnRequest.mk
               [⟨.VERSION, .EQUAL, [97], [], none, some 1, none, none, none⟩]
               [.requestPut ⟨[97], [50], 0, false, false, false⟩]
               []).compare.all
              (fun c =>
                specCompareHolds [([97], ⟨⟨[49], 0, 0, 1, 0⟩, some 5⟩)] c),
             resps⟩,
            st')) :=
  txn_succeeded_is_and_of_compares ⟨[], ⟨[], [], 0⟩, 0⟩
    [([97], ⟨⟨[49], 0, 0, 1, 0⟩, some 5⟩)]
    (.mk [⟨.VERSION, .EQUAL, [97], [], none, some 1, none, none, none⟩]
      [.requestPut ⟨[97], [50], 0, false, false, false⟩] [])
    (fun c hc => by
      simp only [TxnRequest.compare, List.mem_singleton] at hc
      subst hc
      exact ⟨rfl, by decide, rfl⟩)

/-- C9 (code_bug evidence): `KVIndexer::compact` on an index in which no
transaction has been indexed (`revisions_to_keys` empty) dereferences
`revisions_to_key.begin()` of an empty `std::map`, which is out of
bounds; the embedding returns `none` there. -/
theorem index_compact_empty_index_oob :
    KVIndexer.compact ⟨[], [], 0⟩ 1 = none := rfl

/-- C10: the LeaseLeases handler lists exactly the ids of stored leases
for which `has_expired(now_s)` is false; an expired but unrevoked lease
is never listed. -/
theorem lease_leases_lists_exactly_unexpired (m : LeaseMap) (now id : Int) :
    id ∈ (lease_leases m now).leases ↔
      ∃ l : Lease, (id, l) ∈ m ∧ l.has_expired now = false := by
  simp only [lease_leases, List.mem_map, List.mem_filter]
  constructor
  · rintro ⟨⟨id', l⟩, ⟨hm, hexp⟩, rfl⟩
    exact ⟨l, hm, by simpa using hexp⟩
  · rintro ⟨l, hm, hexp⟩
    exact ⟨(id, l), ⟨hm, by simpa using hexp⟩, rfl⟩

/-- C7: for a stored lease `{ttl := T, start_time := t0}` that has not
been kept alive, `contains(L, t)` holds exactly when `t < t0 + T` (for
any epoch time `t ≥ 0`); and `ttl_remaining` is `(start_time + ttl) −
now` when positive and `−1` exactly when the lease has expired. -/
theorem lease_contains_iff_and_ttl_remaining (m : LeaseMap)
    (id T t0 t : Int) (l : Lease) (now : Int)
    (hgrant : lookupLease m id = some ⟨T, t0⟩) (ht : 0 ≤ t) :
    (LeaseStore.contains m id t = decide (t < t0 + T)) ∧
    (l.ttl_remaining now =
      if 0 < l.start_time + l.ttl - now then l.start_time + l.ttl - now
      else -1) ∧
    (l.has_expired now = true ↔ l.ttl_remaining now = -1) := by
  refine ⟨?_, ?_, ?_⟩
  · simp only [LeaseStore.contains, LeaseStore.get, hgrant,
      Lease.has_expired, Lease.ttl_remaining, EXPIRED_LEASE]
    split_ifs <;> (simp_all; try omega)
  · simp only [Lease.ttl_remaining]
    split_ifs <;> omega
  · simp only [Lease.has_expired, Lease.ttl_remaining]
    split_ifs <;> (simp; try omega)

/-- Witness for C7 at a concrete lease map and times. -/
theorem lease_contains_iff_and_ttl_remaining_witness :
    (LeaseStore.contains [((7 : Int), Lease.mk 5 10)] 7 14 =
      decide ((14 : Int) < 10 + 5)) ∧
    (Lease.ttl_remaining ⟨5, 10⟩ 12 =
      if 0 < (10 : Int) + 5 - 12 then (10 : Int) + 5 - 12 else -1) ∧
    (Lease.has_expired ⟨5, 10⟩ 12 = true ↔
      Lease.ttl_remaining ⟨5, 10⟩ 12 = -1) :=
  lease_contains_iff_and_ttl_remaining [(7, ⟨5, 10⟩)] 7 5 10 14 ⟨5, 10⟩ 12
    rfl (by decide)

/-- C6 counterexample: a lease that is stored but *expired* is not
answered with NOT_FOUND: `keep_alive` refreshes it and the handler
returns its ttl. -/
theorem lease_keep_alive_expired_counterexample :
    Lease.has_expired ⟨5, 0⟩ 100 = true ∧
    lease_keep_alive [((7 : Int), Lease.mk 5 0)] 100 7 =
      .ok (⟨7, 5⟩, [(7, ⟨5, 100⟩)]) := by
  constructor
  · decide
  · rfl

/-- C6 (amended): the handler returns NOT_FOUND exactly when the lease
store's `keep_alive` returns 0, which happens when the id is missing
from the map (or the stored ttl is itself 0); when the id is present —
expired or not — `keep_alive` sets `start_time := now` and returns the
stored ttl, which the handler then returns. -/
theorem lease_keep_alive_missing_not_found (m : LeaseMap) (now id : Int)
    (l : Lease) :
    (lookupLease m id = none →
      lease_keep_alive m now id = .error .NOT_FOUND) ∧
    (lookupLease m id = some l →
      LeaseStore.keep_alive m id now = (l.ttl, insertLease m id ⟨l.ttl, now⟩) ∧
      lease_keep_alive m now id =
        (if l.ttl = 0 then .error .NOT_FOUND
         else .ok (⟨id, l.ttl⟩, insertLease m id ⟨l.ttl, now⟩))) := by
  constructor
  · intro h
    simp [lease_keep_alive, LeaseStore.keep_alive, h]
  · intro h
    refine ⟨by simp [LeaseStore.keep_alive, h], ?_⟩
    simp only [lease_keep_alive, LeaseStore.keep_alive, h]
    split_ifs <;> simp_all

/-- Witness for C6 at a concrete missing id and a concrete present
(expired) lease. -/
theorem lease_keep_alive_missing_not_found_witness :
    lease_keep_alive [] 100 7 = .error .NOT_FOUND ∧
    lease_keep_alive [((9 : Int), Lease.mk 5 0)] 100 9 =
      .ok (⟨9, 5⟩, [(9, ⟨5, 100⟩)]) := by
  constructor
  · exact (lease_keep_alive_missing_not_found [] 100 7 ⟨0, 0⟩).1 rfl
  · have h :=
      ((lease_keep_alive_missing_not_found [(9, ⟨5, 0⟩)] 100 9 ⟨5, 0⟩).2 rfl).2
    simpa using h

/-- C8: `KVStore::remove` returns the stored record exactly as
deserialised, with no hydration — under the reachable-state invariant
that stored records carry the `mod_revision = 0` sentinel, the returned
record has `mod_revision = 0` — whereas `get` (like `range` and
`foreach`) always returns the hydrated record, whose `mod_revision` is
the host's version-of-previous-write. -/
theorem kvstore_remove_returns_unhydrated (st : Store) (k : Bytes)
    (e : Entry) (hlk : lookupKey st k = some e)
    (hmod : ∀ p ∈ st, (p.2 : Entry).value.mod_revision = 0) :
    (KVStore.remove st k).1 = some e.value ∧
    e.value.mod_revision = 0 ∧
    KVStore.get st k = some (KVStore.hydrate_value e) ∧
    (KVStore.hydrate_value e).mod_revision = e.prevWrite.getD 0 ∧
    (∀ p ∈ KVStore.foreach st,
      ∃ q ∈ st, p = (q.1, KVStore.hydrate_value q.2)) := by
  refine ⟨?_, ?_, ?_, ?_, ?_⟩
  · simp [KVStore.remove, hlk]
  · exact hmod (k, e) (lookupKey_mem hlk)
  · simp [KVStore.get, hlk]
  · simp only [KVStore.hydrate_value, Value.hydrate]
  · intro p hp
    simp only [KVStore.foreach, List.mem_map] at hp
    obtain ⟨q, hq, rfl⟩ := hp
    exact ⟨q, hq, rfl⟩

/-- Witness for C8 at a concrete one-entry store. -/
theorem kvstore_remove_returns_unhydrated_witness :
    (KVStore.remove [([97], ⟨⟨[49], 0, 0, 1, 0⟩, some 5⟩)] [97]).1 =
      some ⟨[49], 0, 0, 1, 0⟩ ∧
    (⟨[49], 0, 0, 1, 0⟩ : Value).mod_revision = 0 ∧
    KVStore.get [([97], ⟨⟨[49], 0, 0, 1, 0⟩, some 5⟩)] [97] =
      some (KVStore.hydrate_value ⟨⟨[49], 0, 0, 1, 0⟩, some 5⟩) ∧
    (KVStore.hydrate_value ⟨⟨[49], 0, 0, 1, 0⟩, some 5⟩).mod_revision =
      (some (5 : Int)).getD 0 ∧
    (∀ p ∈ KVStore.foreach [([97], ⟨⟨[49], 0, 0, 1, 0⟩, some 5⟩)],
      ∃ q ∈ [(([97] : Bytes), Entry.mk ⟨[49], 0, 0, 1, 0⟩ (some 5))],
        p = (q.1, KVStore.hydrate_value q.2)) :=
  kvstore_remove_returns_unhydrated [([97], ⟨⟨[49], 0, 0, 1, 0⟩, some 5⟩)]
    [97] ⟨⟨[49], 0, 0, 1, 0⟩, some 5⟩ rfl (by decide)

end LSKV
